import Mathlib

/-!
Verification of the bookmark enrichment pipeline of the AI-bookmark-manager
repository. Pure logic is translated from the TypeScript source
(src/App.tsx, src/services/geminiService.ts, src/components); host platform
functions (the WHATWG URL parser, fetch, JSON handling, regex engines and
Date parsing) are modelled as explicit parameters or executable models, as
noted at each definition.
-/

namespace Bookmarklib

/-! ## String helpers modelling the JavaScript string operations used. -/

/-- Model of JavaScript String.startsWith on character lists. -/
def lstarts : List Char → List Char → Bool
  | [], _ => true
  | _ :: _, [] => false
  | a :: as, b :: bs => a == b && lstarts as bs

/-- Model of JavaScript String.includes (substring test) on character lists. -/
def lhas (needle : List Char) : List Char → Bool
  | [] => lstarts needle []
  | h :: t => lstarts needle (h :: t) || lhas needle t

/-- Model of JavaScript String.includes on strings. -/
def strHas (hay needle : String) : Bool :=
  lhas needle.data hay.data

/-- Model of JavaScript String.toLowerCase: lowercase every character. -/
def strLower (s : String) : String :=
  String.mk (s.data.map Char.toLower)

/-- Model of JavaScript String.trim: drop whitespace from both ends. -/
def jsTrim (s : String) : String :=
  String.mk (((s.data.dropWhile Char.isWhitespace).reverse.dropWhile
    Char.isWhitespace).reverse)

/-! ## Executable model of the host WHATWG URL parser.

The source (src/App.tsx, stripUtmParams) uses only these aspects of the
host new URL object: construction may throw on an unparsable string, the
searchParams key-value list, deletion of keys, and toString serialization.
The model below works on character lists: a URL splits into the part
before the query, a query as a key-value pair list, and an optional
fragment. -/

/-- Split a character list at the first occurrence of a separator:
none when the separator is absent. -/
def splitFirst (sep : Char) : List Char → Option (List Char × List Char)
  | [] => none
  | c :: cs =>
    if c = sep then some ([], cs)
    else match splitFirst sep cs with
      | none => none
      | some (a, b) => some (c :: a, b)

/-- Split a character list on every occurrence of a separator; this is
the JavaScript String.split behaviour for a one-character separator. -/
def splitAll (sep : Char) : List Char → List (List Char)
  | [] => [[]]
  | c :: cs =>
    if c = sep then [] :: splitAll sep cs
    else
      match splitAll sep cs with
      | [] => [[c]]
      | s :: rest => (c :: s) :: rest

/-- A parsed URL in the model: text before the query, the query as a
key-value list, and an optional fragment. -/
structure URLRec where
  base : List Char
  query : List (List Char × List Char)
  frag : Option (List Char)
deriving DecidableEq

/-- Parse one query segment into a key-value pair, splitting at the first
equals sign (a segment with no equals sign gets an empty value). -/
def parseSeg (seg : List Char) : List Char × List Char :=
  match splitFirst '=' seg with
  | none => (seg, [])
  | some (k, v) => (k, v)

/-- Parse a query string into key-value pairs (empty segments dropped). -/
def parseQuery (q : List Char) : List (List Char × List Char) :=
  ((splitAll '&' q).filter (fun seg => !seg.isEmpty)).map parseSeg

/-- Parse the pre-fragment part: split off the query at the first
question mark and require the scheme separator in the base part
(otherwise the host constructor throws, modelled as none). -/
def parsePre (pre : List Char) (frag : Option (List Char)) : Option URLRec :=
  match splitFirst '?' pre with
  | none => if lhas "://".data pre then some ⟨pre, [], frag⟩ else none
  | some (a, b) => if lhas "://".data a then some ⟨a, parseQuery b, frag⟩ else none

/-- Model of the host URL parser: split off the fragment at the first
hash, then parse the remaining part. -/
def parseURL (cs : List Char) : Option URLRec :=
  match splitFirst '#' cs with
  | none => parsePre cs none
  | some (a, b) => parsePre a (some b)

/-- Serialize one query pair as key, equals sign, value. -/
def serSeg (kv : List Char × List Char) : List Char :=
  kv.1 ++ '=' :: kv.2

/-- Serialize a query pair list with ampersand separators. -/
def serQuery : List (List Char × List Char) → List Char
  | [] => []
  | [kv] => serSeg kv
  | kv :: rest => serSeg kv ++ '&' :: serQuery rest

/-- Model of the host URL toString: base, then the query when non-empty,
then the fragment when present. -/
def serializeURL (u : URLRec) : List Char :=
  u.base
    ++ (if u.query.isEmpty then [] else '?' :: serQuery u.query)
    ++ (match u.frag with | none => [] | some f => '#' :: f)

/-- Tracking keys are those starting with utm underscore
(source: key.startsWith in stripUtmParams, src/App.tsx line 24). -/
def isUtmKey (k : List Char) : Bool :=
  lstarts "utm_".data k

/-- Remove every query pair whose key is a tracking key; this is the
effect of the keysToDelete loop in stripUtmParams (src/App.tsx 24-25). -/
def deleteUtm (u : URLRec) : URLRec :=
  { u with query := u.query.filter (fun kv => !isUtmKey kv.1) }

/-- Embedding of stripUtmParams (src/App.tsx lines 19-30): return the
input unchanged when it is empty or lacks the utm marker substring or
fails to parse; otherwise delete tracking query keys and serialize. -/
def stripUtmParams (s : String) : String :=
  if s = "" || !(strHas s "utm_") then s
  else
    match parseURL s.data with
    | none => s
    | some u => String.mk (serializeURL (deleteUtm u))

/-- Well-formedness of one query pair as produced by the parser: the
key holds no equals sign, and neither side holds a pair or fragment
separator. -/
def wfPair (kv : List Char × List Char) : Prop :=
  '=' ∉ kv.1 ∧ '&' ∉ kv.1 ∧ '#' ∉ kv.1 ∧ '&' ∉ kv.2 ∧ '#' ∉ kv.2

/-- Well-formedness of a parsed URL: the base holds the scheme
separator and no query or fragment marker, and every query pair is
well formed. -/
def wfURL (u : URLRec) : Prop :=
  lhas "://".data u.base = true ∧ '?' ∉ u.base ∧ '#' ∉ u.base
    ∧ ∀ kv ∈ u.query, wfPair kv

/-! ## Enrichment client (src/services/geminiService.ts).

The generative model call, the prompt construction and the JSON parsing
of the response are host or network effects: every attempt of the retry
loop is modelled by an oracle that yields either a parsed response array
plus grounding sources, or a thrown error carrying an optional numeric
status and a message. Any thrown failure inside one attempt (empty
response, safety block, JSON parse failure, transport error) is one err
outcome of the oracle. Date parsing by the host new Date is the dateOf
parameter: none models an invalid date, some gives the full year and the
ISO serialization. -/

/-- A grounding citation pair, uri and title (geminiService.ts 18-25). -/
structure SourceRef where
  uri : String
  title : String
deriving DecidableEq

/-- One object of the parsed JSON response array. Every field is
optional, modelling missing or non-string JSON members; keywords is some
exactly when the member is an array (the Array.isArray test). -/
structure RespObj where
  url : Option String
  title : Option String
  summary : Option String
  keywords : Option (List String)
  publicationDate : Option String
deriving DecidableEq

/-- Result record returned per input URL (geminiService.ts 18-25). -/
structure BookmarkResult where
  url : String
  title : String
  summary : String
  keywords : List String
  publicationDate : Option String
  sources : List SourceRef
deriving DecidableEq

/-- JavaScript or-default on an optional string: undefined and the empty
string are falsy. -/
def jsOr (o : Option String) (b : String) : String :=
  match o with
  | some s => if s = "" then b else s
  | none => b

/-- An error value as observed by the catch block: optional numeric
status and a message (geminiService.ts 224-227). -/
structure JsError where
  status : Option Int
  message : String
deriving DecidableEq

/-- Outcome of one attempt of the model call including response
validation: a parsed response array with grounding sources, or a thrown
error. -/
inductive AttemptOutcome where
  | ok (results : List RespObj) (sources : List SourceRef)
  | err (e : JsError)

/-- Errors the batch call can propagate to its caller. -/
inductive BatchError where
  | apiKeyError (msg : String)
  | jsError (e : JsError)
  | batchFailed
deriving DecidableEq

/-- Observable effects of one batch call: a context prefetch for a URL,
one model-call attempt, or a wait of the given milliseconds. -/
inductive Event where
  | prefetch (url : String)
  | attempt (n : Nat)
  | delayMs (ms : ℚ)
deriving DecidableEq

/-- Retry ceiling (geminiService.ts line 11). -/
def MAX_RETRIES : Nat := 2

/-- Base backoff delay in milliseconds (geminiService.ts line 12). -/
def INITIAL_BACKOFF_MS : ℚ := 2500

/-- The auth classification of a caught error message
(geminiService.ts line 229). -/
def isAuthMessage (msg : String) : Bool :=
  strHas msg "API key not valid" || strHas msg "404"

/-- The rate-limit classification of a caught error
(geminiService.ts line 234). -/
def isRateLimit (e : JsError) : Bool :=
  e.status == some 429 || strHas e.message "RESOURCE_EXHAUSTED"

/-- Exponential backoff wait, INITIAL_BACKOFF_MS times 2.5 to the power
of the attempt index (geminiService.ts line 235). -/
def backoffDelay (att : Nat) : ℚ :=
  INITIAL_BACKOFF_MS * (5 / 2 : ℚ) ^ att

/-- The response-to-input matching predicate (geminiService.ts 200-203):
exact case-insensitive equality, or substring containment of the
response URL in the input URL, where a missing or empty response URL
degrades to the sentinel that matches nothing. -/
def respMatches (originalUrl : String) (r : RespObj) : Bool :=
  (match r.url with
   | some u => strLower u == strLower originalUrl
   | none => false)
  || strHas (strLower originalUrl)
      (match r.url with
       | some u => if strLower u = "" then "---" else strLower u
       | none => "---")

/-- Fallback title for an unmatched URL (geminiService.ts line 216): the
third slash-separated segment of the URL, or Untitled. -/
def urlFallbackTitle (url : String) : String :=
  jsOr ((url.splitOn "/").get? 2) "Untitled"

/-- Publication-date validation (geminiService.ts 206-212): the field
must be a truthy string that the host date parser accepts with a full
year above 1970; the ISO serialization is kept. -/
def validPubDate (dateOf : String → Option (Int × String)) (r : RespObj) : Option String :=
  match r.publicationDate with
  | some s =>
    if s = "" then none
    else
      match dateOf s with
      | some (y, iso) => if y > 1970 then some iso else none
      | none => none
  | none => none

/-- Mapping of one input URL against the parsed response array
(geminiService.ts 199-222). -/
def mapOne (dateOf : String → Option (Int × String)) (results : List RespObj)
    (sources : List SourceRef) (originalUrl : String) : BookmarkResult :=
  let found := results.find? (respMatches originalUrl)
  { url := originalUrl
    title := jsOr (found.bind (·.title)) (urlFallbackTitle originalUrl)
    summary := jsOr (found.bind (·.summary)) "Summary could not be generated."
    keywords := (found.bind (·.keywords)).getD []
    publicationDate := found.bind (validPubDate dateOf)
    sources := sources.take 5 }

/-- Mapping of the whole input list (geminiService.ts line 199). -/
def mapResults (dateOf : String → Option (Int × String)) (urls : List String)
    (results : List RespObj) (sources : List SourceRef) : List BookmarkResult :=
  urls.map (mapOne dateOf results sources)

/-- The retry loop of generateBookmarksBatch (geminiService.ts 129-244).
The fuel argument makes the for loop structural: the entry point passes
MAX_RETRIES + 1, so fuel runs out exactly when the attempt index passes
MAX_RETRIES and the closing throw of the function is reached. -/
def batchLoop (dateOf : String → Option (Int × String)) (oracle : Nat → AttemptOutcome)
    (urls : List String) : Nat → Nat → Except BatchError (List BookmarkResult) × List Event
  | 0, _ => (.error .batchFailed, [])
  | fuel + 1, att =>
    match oracle att with
    | .ok results sources => (.ok (mapResults dateOf urls results sources), [.attempt att])
    | .err e =>
      if isAuthMessage e.message then
        (.error (.apiKeyError "API Key invalid or expired."), [.attempt att])
      else if isRateLimit e && decide (att < MAX_RETRIES) then
        let next := batchLoop dateOf oracle urls fuel (att + 1)
        (next.1, .attempt att :: .delayMs (backoffDelay att) :: next.2)
      else if att == MAX_RETRIES then
        (.error (.jsError e), [.attempt att])
      else
        let next := batchLoop dateOf oracle urls fuel (att + 1)
        (next.1, .attempt att :: .delayMs 1500 :: next.2)

/-- Configuration of one batch call: whether the API key environment
variable is set, the host date parser, and the per-attempt oracle. -/
structure BatchConfig where
  apiKeyConfigured : Bool
  dateOf : String → Option (Int × String)
  oracle : Nat → AttemptOutcome

/-- Embedding of generateBookmarksBatch (geminiService.ts 111-245):
missing-credential guard, empty-input guard, context prefetch over the
input URLs, then the retry loop. The value returned on success and the
emitted effects are paired. -/
def generateBookmarksBatch (cfg : BatchConfig) (urls : List String) :
    Except BatchError (List BookmarkResult) × List Event :=
  if !cfg.apiKeyConfigured then
    (.error (.apiKeyError "API_KEY environment variable is not set."), [])
  else if urls.isEmpty then (.ok [], [])
  else
    let pre := urls.map Event.prefetch
    let run := batchLoop cfg.dateOf cfg.oracle urls (MAX_RETRIES + 1) 0
    (run.1, pre ++ run.2)

/-! ## Record store and scheduler (src/App.tsx). -/

/-- Record status (src/types.ts): the shipped type has no queued member;
freshly admitted records start in processing with a placeholder title. -/
inductive Status where
  | processing
  | done
  | error
  | warning
deriving DecidableEq

/-- The central bookmark record (src/types.ts). The optional sources
field is modelled as a list, absence being the empty list; the opaque
uuid identifiers are natural numbers. -/
structure Bookmark where
  id : Nat
  url : String
  title : String
  summary : String
  keywords : List String
  status : Status
  createdAt : String
  sources : List SourceRef
deriving DecidableEq

/-- One normalized import entry handed to handleProcessUrls. -/
structure UrlEntry where
  url : String
  addDate : Option String
deriving DecidableEq

/-- Chunk size of the scheduler (src/App.tsx line 16). -/
def BATCH_SIZE : Nat := 5

/-- URLs of the current records that are not in error status, the dedup
set of admission (src/App.tsx line 119). -/
def existingUrls (books : List Bookmark) : List String :=
  (books.filter (fun b => !(b.status == Status.error))).map (·.url)

/-- The admission dedup loop (src/App.tsx 122-128): strip tracking
parameters, drop an entry whose cleaned URL is in the seen set, and add
each admitted cleaned URL to the seen set. -/
def dedupBatch (seen : List String) : List UrlEntry → List UrlEntry
  | [] => []
  | d :: rest =>
    let cleaned := stripUtmParams d.url
    if seen.contains cleaned then dedupBatch seen rest
    else { d with url := cleaned } :: dedupBatch (cleaned :: seen) rest

/-- One placeholder record for an admitted entry (src/App.tsx 135-143):
status processing, title Queued..., created date from the imported date
when truthy, otherwise the current time. -/
def mkEntry (id : Nat) (now : String) (d : UrlEntry) : Bookmark :=
  { id := id
    url := d.url
    title := "Queued..."
    summary := ""
    keywords := []
    status := Status.processing
    createdAt := jsOr d.addDate now
    sources := [] }

/-- Placeholder records for all admitted entries, with the position
index feeding the fresh-identifier supply. -/
def mkNewEntriesFrom (ids : Nat → Nat) (now : String) : Nat → List UrlEntry → List Bookmark
  | _, [] => []
  | i, d :: rest => mkEntry (ids i) now d :: mkNewEntriesFrom ids now (i + 1) rest

/-- Placeholder records for the admitted entries (src/App.tsx 135-143). -/
def mkNewEntries (ids : Nat → Nat) (now : String) (batch : List UrlEntry) : List Bookmark :=
  mkNewEntriesFrom ids now 0 batch

/-- Merge of one enrichment result onto one record (src/App.tsx 166-176,
and identically in handleRetryBookmark 230-238): overwrite the enriched
fields, keep the created date unless a publication date is present, and
classify a missing or short summary as warning. -/
def applyResult (b : Bookmark) (res : BookmarkResult) : Bookmark :=
  { b with
    title := res.title
    summary := res.summary
    keywords := res.keywords
    sources := res.sources
    createdAt := jsOr res.publicationDate b.createdAt
    status :=
      if res.summary = "" || res.summary.length < 10 then Status.warning
      else Status.done }

/-- Reconciliation of one result against the collection (src/App.tsx
163-178): the first record with the same URL in processing status is
rewritten, everything else is untouched. -/
def mergeResult (res : BookmarkResult) : List Bookmark → List Bookmark
  | [] => []
  | b :: bs =>
    if b.url == res.url && b.status == Status.processing then applyResult b res :: bs
    else b :: mergeResult res bs

/-- Chunking of the admitted records by the slice loop of the scheduler
(src/App.tsx line 148); fuel keeps the recursion structural and the
callers pass the list length. -/
def chunksFuel (n : Nat) : Nat → List Bookmark → List (List Bookmark)
  | 0, _ => []
  | _, [] => []
  | fuel + 1, l => l.take n :: chunksFuel n fuel (l.drop n)

/-- Partition a record list into scheduler chunks. -/
def chunksOf (n : Nat) (l : List Bookmark) : List (List Bookmark) :=
  chunksFuel n l.length l

/-- Outcome of the awaited enrichment call for one chunk: a result list,
the distinguishable auth error, or any other thrown error. -/
inductive ChunkOutcome where
  | ok (results : List BookmarkResult)
  | apiKeyErr
  | otherErr (msg : String)

/-- The user-facing application state touched by the scheduler. -/
structure AppState where
  bookmarks : List Bookmark
  errorBanner : Option String
  isLoading : Bool
deriving DecidableEq

/-- Title update at the start of a chunk (src/App.tsx 153-155). -/
def markChunkProcessing (chunk : List Bookmark) (books : List Bookmark) : List Bookmark :=
  books.map (fun b =>
    if chunk.any (fun c => c.id == b.id) then { b with title := "Processing batch..." } else b)

/-- Per-record failure of a chunk (src/App.tsx 189-191). -/
def markChunkError (chunk : List Bookmark) (msg : String) (books : List Bookmark) :
    List Bookmark :=
  books.map (fun b =>
    if chunk.any (fun c => c.id == b.id) then
      { b with title := "Error", summary := msg, status := Status.error }
    else b)

/-- The chunk loop of handleProcessUrls (src/App.tsx 148-200): mark the
chunk, await the enrichment call, then merge results, or abort the whole
run on the auth error, or mark the chunk failed and continue. -/
def processChunks (oracle : Nat → ChunkOutcome) :
    Nat → List (List Bookmark) → AppState → AppState
  | _, [], st => { st with isLoading := false }
  | k, c :: rest, st =>
    let st1 := { st with bookmarks := markChunkProcessing c st.bookmarks }
    match oracle k with
    | .ok results =>
      let merged := results.foldl (fun acc res => mergeResult res acc) st1.bookmarks
      processChunks oracle (k + 1) rest { st1 with bookmarks := merged }
    | .apiKeyErr =>
      { st1 with
        errorBanner := some "API Key Error. Please check your environment configuration."
        isLoading := false }
    | .otherErr msg =>
      processChunks oracle (k + 1) rest
        { st1 with bookmarks := markChunkError c msg st1.bookmarks }

/-- Embedding of handleProcessUrls (src/App.tsx 112-201): guard against
an empty import, dedup against the non-error records, admit placeholder
records, and drive the chunk loop. The ids function supplies the opaque
fresh identifiers and now the current time. -/
def handleProcessUrls (oracle : Nat → ChunkOutcome) (ids : Nat → Nat) (now : String)
    (st : AppState) (urlData : List UrlEntry) : AppState :=
  if urlData.isEmpty then st
  else
    let st0 := { st with isLoading := true, errorBanner := none }
    let uniqueBatch := dedupBatch (existingUrls st.bookmarks) urlData
    if uniqueBatch.isEmpty then { st0 with isLoading := false }
    else
      let newEntries := mkNewEntries ids now uniqueBatch
      let st1 := { st0 with bookmarks := st0.bookmarks ++ newEntries }
      processChunks oracle 0 (chunksOf BATCH_SIZE newEntries) st1

/-- Keyword removal by index (src/unnamed/part_000 104-107): the filter
on index keeps every position but the removed one. -/
def handleKeywordRemove (b : Bookmark) (i : Nat) : Bookmark :=
  { b with keywords := b.keywords.eraseIdx i }

/-- Manual keyword add (src/unnamed/part_000 109-121): trim the input
and append it when non-empty and not already present under
case-insensitive comparison. -/
def handleKeywordAdd (b : Bookmark) (input : String) : Bookmark :=
  let newKeyword := jsTrim input
  if newKeyword != "" && !(b.keywords.any (fun k => strLower k == strLower newKeyword)) then
    { b with keywords := b.keywords ++ [newKeyword] }
  else b

/-- Bulk keyword add over the selection (src/App.tsx 262-274): append
the keyword to each selected record not already holding it under
case-insensitive comparison. -/
def handleBulkAddKeyword (selected : Nat → Bool) (keyword : String)
    (books : List Bookmark) : List Bookmark :=
  books.map (fun b =>
    if selected b.id then
      if !(b.keywords.any (fun k => strLower k == strLower keyword)) then
        { b with keywords := b.keywords ++ [keyword] }
      else b
    else b)

/-- The keyword invariant of the data model: no empty entry and no two
entries equal after lowercasing. -/
def keywordsOk (ks : List String) : Prop :=
  (∀ k ∈ ks, k ≠ "") ∧ (ks.map strLower).Nodup

instance (ks : List String) : Decidable (keywordsOk ks) := by
  unfold keywordsOk
  infer_instance

/-! ## Context prefetchers (geminiService.ts 28-105).

Every host operation that can throw (fetch, response body reading, JSON
shape access, DOM text extraction) appears as an Except-valued field of
a host structure; the regex engines appear as oracle fields giving the
capture groups. The embedded functions run in Except, and the try and
catch blocks of the source are the jsCatch occurrences below, so any
error value a host field carries is swallowed exactly where the source
swallows it. -/

/-- The observable part of a fetch response used here. -/
structure FetchResp where
  ok : Bool
  status : Int
deriving DecidableEq

/-- A try block whose body either produces a context value, falls
through with none, or throws; the catch swallows the throw into the
fall-through (the source only logs a warning there). -/
def jsCatch (x : Except String (Option String)) : Option String :=
  match x with
  | .ok v => v
  | .error _ => none

/-- Host behaviour for one fetchTweetContext call: the status regex
match (groups one and two), the authenticated API fetch, the shape
access of data dot data giving text and created date, the oEmbed fetch,
the html member of the oEmbed JSON (none when absent), and the DOM text
extraction. -/
structure TweetHost where
  tweetMatch : Option (String × String)
  apiFetch : Except String FetchResp
  apiJsonText : Except String (String × String)
  oembedFetch : Except String FetchResp
  oembedJson : Except String (Option String)
  oembedText : Except String String

/-- Collapse newline runs to one space, as the replace with the newline
regex does; the flag records whether the previous character was a
newline. -/
def collapseNL : Bool → List Char → List Char
  | _, [] => []
  | prev, c :: cs =>
    if c = '\n' then
      (if prev then collapseNL true cs else ' ' :: collapseNL true cs)
    else c :: collapseNL false cs

/-- The replace and trim of the oEmbed text (geminiService.ts line 64). -/
def squashNLTrim (s : String) : String :=
  jsTrim (String.mk (collapseNL false s.data))

/-- The authenticated API branch of fetchTweetContext (geminiService.ts
34-51): inside one try, fetch, and on an ok status read the tweet text
and date; any throw and any non-ok status fall through to the oEmbed
fallback. -/
def tweetApiBranch (h : TweetHost) : Option String :=
  jsCatch (do
    let res ← h.apiFetch
    if res.ok then
      let td ← h.apiJsonText
      pure (some ("Tweet content: \"" ++ td.1 ++ "\" (Posted: " ++ td.2 ++ ")"))
    else pure none)

/-- The oEmbed fallback of fetchTweetContext (geminiService.ts 54-69):
inside one try, fetch the oEmbed endpoint and extract plain text from
the html member when present and truthy. -/
def tweetOembedBranch (h : TweetHost) : Option String :=
  jsCatch (do
    let res ← h.oembedFetch
    if res.ok then
      let htmlOpt ← h.oembedJson
      match htmlOpt with
      | some html =>
        if html = "" then pure none
        else do
          let text ← h.oembedText
          pure (some ("Tweet content (via oEmbed): \"" ++ squashNLTrim text ++ "\""))
      | none => pure none
    else pure none)

/-- The API branch result guarded by the truthiness test on the
configured bearer key (geminiService.ts line 34). -/
def tweetApiResult (apiKey : Option String) (h : TweetHost) : Option String :=
  match apiKey with
  | some k => if k = "" then none else tweetApiBranch h
  | none => none

/-- Embedding of fetchTweetContext (geminiService.ts 28-72). -/
def fetchTweetContext (apiKey : Option String) (h : TweetHost) :
    Except String (Option String) := do
  match h.tweetMatch with
  | none => return none
  | some _ =>
    match tweetApiResult apiKey h with
    | some s => return some s
    | none => return tweetOembedBranch h

/-- Host behaviour for one fetchYouTubeContext call: capture group seven
of the video regex, the proxied page fetch, the body text read, and the
two meta-tag regex extractions over the fetched html. -/
structure YtHost where
  videoMatch : Option String
  proxyFetch : Except String FetchResp
  proxyText : Except String String
  metaTitle : String → Option String
  metaDesc : String → Option String

/-- The video id of fetchYouTubeContext (geminiService.ts 76-78): the
seventh capture group when it has eleven characters. -/
def ytVideoId (h : YtHost) : Option String :=
  match h.videoMatch with
  | some g => if g.length == 11 then some g else none
  | none => none

/-- Embedding of fetchYouTubeContext (geminiService.ts 75-105): without
a video id, or without a proxy base URL, the context is null; otherwise
one try wraps the proxied fetch and the meta extraction, and any
failure or empty extraction yields null. -/
def fetchYouTubeContext (proxyUrl : Option String) (h : YtHost) :
    Except String (Option String) := do
  match ytVideoId h with
  | none => return none
  | some _ =>
    match proxyUrl with
    | none => return none
    | some p =>
      if p = "" then return none
      else
        return jsCatch (do
          let res ← h.proxyFetch
          if res.ok then
            let html ← h.proxyText
            let title := (h.metaTitle html).getD ""
            let desc := (h.metaDesc html).getD ""
            if title = "" && desc = "" then pure none
            else
              pure (some ("YouTube Video Details:\nTitle: " ++ title
                ++ "\nDescription: " ++ desc))
          else pure none)

/-- The per-URL context dispatch of generateBookmarksBatch
(geminiService.ts 119-127): platform detection by substring. -/
def prefetchContext (xApiKey proxyUrl : Option String) (th : String → TweetHost)
    (yh : String → YtHost) (url : String) : Except String (Option String) :=
  if strHas url "twitter.com" || strHas url "x.com" then
    fetchTweetContext xApiKey (th url)
  else if strHas url "youtube.com" || strHas url "youtu.be" then
    fetchYouTubeContext proxyUrl (yh url)
  else .ok none

/-- The prefetch stage over the whole input list (geminiService.ts
line 119). -/
def prefetchAll (xApiKey proxyUrl : Option String) (th : String → TweetHost)
    (yh : String → YtHost) : List String → Except String (List (Option String))
  | [] => pure []
  | u :: us => do
    let v ← prefetchContext xApiKey proxyUrl th yh u
    let vs ← prefetchAll xApiKey proxyUrl th yh us
    pure (v :: vs)

/-- A host all of whose fallible operations throw, used to observe that
total failure degrades to a null context. -/
def failingTweetHost (m : Option (String × String)) (e : String) : TweetHost :=
  { tweetMatch := m
    apiFetch := .error e
    apiJsonText := .error e
    oembedFetch := .error e
    oembedJson := .error e
    oembedText := .error e }

/-- A host all of whose fallible operations throw, for the video case. -/
def failingYtHost (m : Option String) (e : String) : YtHost :=
  { videoMatch := m
    proxyFetch := .error e
    proxyText := .error e
    metaTitle := fun _ => none
    metaDesc := fun _ => none }

/-- Number of model-call attempts recorded in an event trace. -/
def countAttempts (evs : List Event) : Nat :=
  (evs.filter (fun e => match e with | .attempt _ => true | _ => false)).length

/-! ## Theorems. -/

/-- C6: an enrichment result merged onto a record yields status warning
exactly when its summary is empty or shorter than ten characters, and
under that condition the status is never done; applyResult is the
record update used both by the batch reconciliation (src/App.tsx
166-176) and by the retry path (src/App.tsx 230-238). -/
theorem mergedStatus_warning_threshold (b : Bookmark) (res : BookmarkResult) :
    ((applyResult b res).status = Status.warning ↔
        (res.summary = "" ∨ res.summary.length < 10))
    ∧ ((res.summary = "" ∨ res.summary.length < 10) →
        (applyResult b res).status ≠ Status.done) := by
  constructor
  · constructor
    · intro h
      by_contra hc
      push_neg at hc
      simp [applyResult, hc.1, hc.2] at h
    · intro h
      rcases h with h | h <;> simp [applyResult, h]
  · intro h
    rcases h with h | h <;> simp [applyResult, h]

/-- Witness for C6 at a concrete record and a five-character summary. -/
theorem mergedStatus_warning_threshold_witness :
    (applyResult ⟨0, "u", "t", "s", [], Status.processing, "d", []⟩
        ⟨"u", "T", "short", [], none, []⟩).status ≠ Status.done :=
  (mergedStatus_warning_threshold ⟨0, "u", "t", "s", [], Status.processing, "d", []⟩
      ⟨"u", "T", "short", [], none, []⟩).2 (Or.inr (by decide))

/-- C10: the missing-credential check precedes the empty-input guard:
on the empty URL list the call throws the auth error when no key is
configured, and with a key it returns the empty list with an empty
effect trace, so no prefetch and no model attempt happens. -/
theorem generateBookmarksBatch_key_before_empty
    (dateOf : String → Option (Int × String)) (oracle : Nat → AttemptOutcome) :
    generateBookmarksBatch ⟨false, dateOf, oracle⟩ []
        = (.error (.apiKeyError "API_KEY environment variable is not set."), [])
    ∧ generateBookmarksBatch ⟨true, dateOf, oracle⟩ [] = (.ok [], []) := by
  exact ⟨rfl, rfl⟩

/-- C2 evaluation at the failing input: one URL is admitted, the chunk
call throws the distinguishable auth error, the run aborts with the
user-visible banner, yet the admitted record is left in processing
status, contradicting the claim that no record admitted in the run
stays in processing. -/
theorem handleProcessUrls_auth_abort_keeps_processing :
    (handleProcessUrls (fun _ => ChunkOutcome.apiKeyErr) (fun n => n)
        "2025-01-01T00:00:00.000Z" (AppState.mk [] none false)
        [⟨"https://a.example/page", none⟩]).errorBanner
      = some "API Key Error. Please check your environment configuration."
    ∧ (handleProcessUrls (fun _ => ChunkOutcome.apiKeyErr) (fun n => n)
        "2025-01-01T00:00:00.000Z" (AppState.mk [] none false)
        [⟨"https://a.example/page", none⟩]).isLoading = false
    ∧ (handleProcessUrls (fun _ => ChunkOutcome.apiKeyErr) (fun n => n)
        "2025-01-01T00:00:00.000Z" (AppState.mk [] none false)
        [⟨"https://a.example/page", none⟩]).bookmarks.map
          (fun b => (b.status, b.title))
      = [(Status.processing, "Processing batch...")] := by
  decide

/-- The tweet prefetcher terminates with a value for every host
behaviour; every fallible host step sits inside one of its two try
blocks. -/
theorem fetchTweetContext_ok (k : Option String) (h : TweetHost) :
    ∃ v, fetchTweetContext k h = .ok v := by
  unfold fetchTweetContext
  cases htm : h.tweetMatch with
  | none => exact ⟨none, rfl⟩
  | some g =>
    cases har : tweetApiResult k h with
    | some s => exact ⟨some s, rfl⟩
    | none => exact ⟨tweetOembedBranch h, rfl⟩

/-- The video prefetcher terminates with a value for every host
behaviour. -/
theorem fetchYouTubeContext_ok (p : Option String) (h : YtHost) :
    ∃ v, fetchYouTubeContext p h = .ok v := by
  unfold fetchYouTubeContext
  cases hv : ytVideoId h with
  | none => exact ⟨none, rfl⟩
  | some g =>
    cases p with
    | none => exact ⟨none, rfl⟩
    | some s =>
      by_cases hs : s = ""
      · simp only [hs, if_pos rfl]
        exact ⟨none, rfl⟩
      · simp only [if_neg hs]
        exact ⟨_, rfl⟩

/-- The per-URL dispatch terminates with a value for every host
behaviour. -/
theorem prefetchContext_ok (xk pu : Option String) (th : String → TweetHost)
    (yh : String → YtHost) (url : String) :
    ∃ v, prefetchContext xk pu th yh url = .ok v := by
  unfold prefetchContext
  by_cases h1 : (strHas url "twitter.com" || strHas url "x.com") = true
  · simp only [h1, if_pos rfl]
    exact fetchTweetContext_ok xk (th url)
  · simp only [h1]
    by_cases h2 : (strHas url "youtube.com" || strHas url "youtu.be") = true
    · simp [h1, h2]
      exact fetchYouTubeContext_ok pu (yh url)
    · simp [h1, h2]

/-- The whole prefetch stage terminates with one optional context per
input URL for every host behaviour. -/
theorem prefetchAll_ok (xk pu : Option String) (th : String → TweetHost)
    (yh : String → YtHost) (urls : List String) :
    ∃ ctxs, prefetchAll xk pu th yh urls = .ok ctxs ∧ ctxs.length = urls.length := by
  induction urls with
  | nil => exact ⟨[], rfl, rfl⟩
  | cons u us ih =>
    obtain ⟨v, hv⟩ := prefetchContext_ok xk pu th yh u
    obtain ⟨vs, hvs, hlen⟩ := ih
    refine ⟨v :: vs, ?_, by simp [hlen]⟩
    unfold prefetchAll
    rw [hv, hvs]
    rfl

/-- A tweet host whose every fallible step throws yields a null
context. -/
theorem fetchTweetContext_failing (m : Option (String × String)) (e : String)
    (k : Option String) :
    fetchTweetContext k (failingTweetHost m e) = .ok none := by
  unfold fetchTweetContext
  cases m with
  | none => rfl
  | some g =>
    have har : tweetApiResult k (failingTweetHost (some g) e) = none := by
      unfold tweetApiResult
      cases k with
      | none => rfl
      | some s =>
        by_cases hs : s = ""
        · simp [hs]
        · simp [hs]
          rfl
    rw [show (failingTweetHost (some g) e).tweetMatch = some g from rfl]
    rw [har]
    rfl

/-- A video host whose every fallible step throws yields a null
context. -/
theorem fetchYouTubeContext_failing (m : Option String) (e : String)
    (p : Option String) :
    fetchYouTubeContext p (failingYtHost m e) = .ok none := by
  unfold fetchYouTubeContext
  cases hv : ytVideoId (failingYtHost m e) with
  | none => rfl
  | some g =>
    cases p with
    | none => rfl
    | some s =>
      by_cases hs : s = ""
      · simp only [hs, if_pos rfl]
        rfl
      · simp only [if_neg hs]
        rfl

/-- C8: the context prefetchers terminate normally with a context or
null for every input and every behaviour of the external fetch
collaborator, never propagating an exception into the batch call, and
hosts whose every fallible operation throws degrade to a null context
with which the enrichment call proceeds. -/
theorem contextPrefetch_never_throws :
    (∀ (k : Option String) (h : TweetHost), ∃ v, fetchTweetContext k h = .ok v)
    ∧ (∀ (p : Option String) (h : YtHost), ∃ v, fetchYouTubeContext p h = .ok v)
    ∧ (∀ (xk pu : Option String) (th : String → TweetHost) (yh : String → YtHost)
        (urls : List String),
        ∃ ctxs, prefetchAll xk pu th yh urls = .ok ctxs ∧ ctxs.length = urls.length)
    ∧ (∀ (m : Option (String × String)) (e : String) (k : Option String),
        fetchTweetContext k (failingTweetHost m e) = .ok none)
    ∧ (∀ (m : Option String) (e : String) (p : Option String),
        fetchYouTubeContext p (failingYtHost m e) = .ok none) :=
  ⟨fetchTweetContext_ok, fetchYouTubeContext_ok, prefetchAll_ok,
    fetchTweetContext_failing, fetchYouTubeContext_failing⟩

/-- An attempt failing with an auth-classified message makes the retry
loop raise the distinguishable auth error at once, recording only that
one attempt. -/
theorem batchLoop_auth_immediate (dateOf : String → Option (Int × String))
    (oracle : Nat → AttemptOutcome) (urls : List String) (fuel att : Nat) (e : JsError)
    (h : oracle att = .err e) (hauth : isAuthMessage e.message = true) :
    batchLoop dateOf oracle urls (fuel + 1) att
      = (.error (.apiKeyError "API Key invalid or expired."), [.attempt att]) := by
  unfold batchLoop
  rw [h]
  simp [hauth]

/-- The chunk loop aborts on the distinguishable auth error: the state
after the abort is explicit and the remaining chunks are never
consulted. -/
theorem processChunks_abort (oracle : Nat → ChunkOutcome) (k : Nat)
    (c : List Bookmark) (rest : List (List Bookmark)) (st : AppState)
    (h : oracle k = ChunkOutcome.apiKeyErr) :
    processChunks oracle k (c :: rest) st
      = { bookmarks := markChunkProcessing c st.bookmarks
          errorBanner := some "API Key Error. Please check your environment configuration."
          isLoading := false } := by
  simp only [processChunks]
  rw [h]

/-- Any other chunk failure only marks the records of that chunk as
failed and continues with the remaining chunks. -/
theorem processChunks_other_continues (oracle : Nat → ChunkOutcome) (k : Nat)
    (c : List Bookmark) (rest : List (List Bookmark)) (st : AppState) (msg : String)
    (h : oracle k = ChunkOutcome.otherErr msg) :
    processChunks oracle k (c :: rest) st
      = processChunks oracle (k + 1) rest
          { st with bookmarks := markChunkError c msg (markChunkProcessing c st.bookmarks) } := by
  simp only [processChunks]
  rw [h]

/-- When no chunk outcome is the distinguishable auth error, the run
never sets the run-level banner. -/
theorem processChunks_banner_none (oracle : Nat → ChunkOutcome)
    (chunks : List (List Bookmark)) :
    ∀ (k : Nat) (st : AppState), st.errorBanner = none →
      (∀ j, oracle j ≠ ChunkOutcome.apiKeyErr) →
      (processChunks oracle k chunks st).errorBanner = none := by
  induction chunks with
  | nil =>
    intro k st h1 _
    simpa [processChunks] using h1
  | cons c rest ih =>
    intro k st h1 h2
    simp only [processChunks]
    cases ho : oracle k with
    | ok results => exact ih (k + 1) _ (by simpa using h1) h2
    | apiKeyErr => exact absurd ho (h2 k)
    | otherErr msg => exact ih (k + 1) _ (by simpa using h1) h2

/-- C5: the missing-credential guard raises the distinguishable auth
error before any work; an attempt error whose message is classified as
an auth failure raises the same error kind with no further attempt; in
the scheduler that error kind aborts the run with the banner while any
other chunk failure degrades to per-record error status and the run
continues, and a run whose chunk outcomes never include the auth error
ends without a run-level banner. -/
theorem apiKeyError_classification :
    (∀ (dateOf : String → Option (Int × String)) (oracle : Nat → AttemptOutcome)
        (urls : List String),
        generateBookmarksBatch ⟨false, dateOf, oracle⟩ urls
          = (.error (.apiKeyError "API_KEY environment variable is not set."), []))
    ∧ (∀ (dateOf : String → Option (Int × String)) (oracle : Nat → AttemptOutcome)
        (urls : List String) (fuel att : Nat) (e : JsError),
        oracle att = .err e → isAuthMessage e.message = true →
        batchLoop dateOf oracle urls (fuel + 1) att
          = (.error (.apiKeyError "API Key invalid or expired."), [.attempt att]))
    ∧ (∀ (oracle : Nat → ChunkOutcome) (k : Nat) (c : List Bookmark)
        (rest : List (List Bookmark)) (st : AppState),
        oracle k = ChunkOutcome.apiKeyErr →
        processChunks oracle k (c :: rest) st
          = { bookmarks := markChunkProcessing c st.bookmarks
              errorBanner := some "API Key Error. Please check your environment configuration."
              isLoading := false })
    ∧ (∀ (oracle : Nat → ChunkOutcome) (k : Nat) (c : List Bookmark)
        (rest : List (List Bookmark)) (st : AppState) (msg : String),
        oracle k = ChunkOutcome.otherErr msg →
        processChunks oracle k (c :: rest) st
          = processChunks oracle (k + 1) rest
              { st with
                bookmarks := markChunkError c msg (markChunkProcessing c st.bookmarks) })
    ∧ (∀ (oracle : Nat → ChunkOutcome) (chunks : List (List Bookmark)) (k : Nat)
        (st : AppState), st.errorBanner = none →
        (∀ j, oracle j ≠ ChunkOutcome.apiKeyErr) →
        (processChunks oracle k chunks st).errorBanner = none) :=
  ⟨fun _ _ _ => rfl, batchLoop_auth_immediate, processChunks_abort,
    processChunks_other_continues, processChunks_banner_none⟩

/-- Witness for C5 at concrete inputs: an auth-classified attempt error
stops after one attempt, and a concrete chunk-level auth error aborts
with the banner. -/
theorem apiKeyError_classification_witness :
    batchLoop (fun _ => none) (fun _ => .err ⟨none, "API key not valid"⟩)
        ["https://a.example/x"] (2 + 1) 0
      = (.error (.apiKeyError "API Key invalid or expired."), [.attempt 0])
    ∧ processChunks (fun _ => ChunkOutcome.apiKeyErr) 0 [[]]
        (AppState.mk [] none true)
      = { bookmarks := markChunkProcessing [] []
          errorBanner := some "API Key Error. Please check your environment configuration."
          isLoading := false } :=
  ⟨apiKeyError_classification.2.1 (fun _ => none)
      (fun _ => .err ⟨none, "API key not valid"⟩) ["https://a.example/x"] 2 0
      ⟨none, "API key not valid"⟩ rfl (by decide),
    apiKeyError_classification.2.2.1 (fun _ => ChunkOutcome.apiKeyErr) 0 [] []
      (AppState.mk [] none true) rfl⟩

/-- One rate-limited attempt below the ceiling recurses after the
exponential backoff wait. -/
theorem batchLoop_rateLimit_step (dateOf : String → Option (Int × String))
    (oracle : Nat → AttemptOutcome) (urls : List String) (fuel att : Nat) (e : JsError)
    (h : oracle att = .err e) (hauth : isAuthMessage e.message = false)
    (hrl : isRateLimit e = true) (hlt : att < MAX_RETRIES) :
    batchLoop dateOf oracle urls (fuel + 1) att
      = ((batchLoop dateOf oracle urls fuel (att + 1)).1,
          .attempt att :: .delayMs (backoffDelay att)
            :: (batchLoop dateOf oracle urls fuel (att + 1)).2) := by
  conv_lhs => rw [batchLoop]
  rw [h]
  simp [hauth, hrl, hlt]

/-- A non-auth error at the ceiling attempt propagates the underlying
error. -/
theorem batchLoop_final_err (dateOf : String → Option (Int × String))
    (oracle : Nat → AttemptOutcome) (urls : List String) (fuel : Nat) (e : JsError)
    (h : oracle MAX_RETRIES = .err e) (hauth : isAuthMessage e.message = false) :
    batchLoop dateOf oracle urls (fuel + 1) MAX_RETRIES
      = (.error (.jsError e), [.attempt MAX_RETRIES]) := by
  unfold batchLoop
  rw [h]
  simp [hauth]

/-- Prefetch events do not count as attempts. -/
theorem countAttempts_prefetch_append (us : List String) (evs : List Event) :
    countAttempts (us.map Event.prefetch ++ evs) = countAttempts evs := by
  induction us with
  | nil => rfl
  | cons u t ih =>
    simp only [List.map_cons, List.cons_append, countAttempts, List.filter] at ih ⊢
    exact ih

/-- C4 amended: when a configured key and a non-empty input reach the
retry loop and every attempt fails with a rate-limit error whose
message is not classified as an auth failure, exactly MAX_RETRIES plus
one attempts happen, separated by waits of INITIAL_BACKOFF_MS times 2.5
to the power of the attempt index, and the underlying error
propagates. -/
theorem rateLimit_retry_ceiling (cfg : BatchConfig) (urls : List String) (e : JsError)
    (hkey : cfg.apiKeyConfigured = true) (hne : urls ≠ [])
    (horacle : ∀ n, n ≤ MAX_RETRIES → cfg.oracle n = .err e)
    (hrl : isRateLimit e = true) (hauth : isAuthMessage e.message = false) :
    generateBookmarksBatch cfg urls
      = (.error (.jsError e),
          urls.map Event.prefetch
            ++ [.attempt 0, .delayMs (backoffDelay 0), .attempt 1,
                .delayMs (backoffDelay 1), .attempt 2])
    ∧ countAttempts (generateBookmarksBatch cfg urls).2 = MAX_RETRIES + 1 := by
  have h0 := horacle 0 (by decide)
  have h1 := horacle 1 (by decide)
  have h2 := horacle 2 (by decide)
  have s0 : batchLoop cfg.dateOf cfg.oracle urls (MAX_RETRIES + 1) 0
      = ((batchLoop cfg.dateOf cfg.oracle urls 2 1).1,
          .attempt 0 :: .delayMs (backoffDelay 0)
            :: (batchLoop cfg.dateOf cfg.oracle urls 2 1).2) :=
    batchLoop_rateLimit_step cfg.dateOf cfg.oracle urls 2 0 e h0 hauth hrl (by decide)
  have s1 : batchLoop cfg.dateOf cfg.oracle urls 2 1
      = ((batchLoop cfg.dateOf cfg.oracle urls 1 2).1,
          .attempt 1 :: .delayMs (backoffDelay 1)
            :: (batchLoop cfg.dateOf cfg.oracle urls 1 2).2) :=
    batchLoop_rateLimit_step cfg.dateOf cfg.oracle urls 1 1 e h1 hauth hrl (by decide)
  have s2 : batchLoop cfg.dateOf cfg.oracle urls 1 2
      = (.error (.jsError e), [.attempt 2]) :=
    batchLoop_final_err cfg.dateOf cfg.oracle urls 0 e h2 hauth
  have hemp : urls.isEmpty = false := by
    cases urls with
    | nil => exact absurd rfl hne
    | cons a t => rfl
  have hrun : generateBookmarksBatch cfg urls
      = (.error (.jsError e),
          urls.map Event.prefetch
            ++ [.attempt 0, .delayMs (backoffDelay 0), .attempt 1,
                .delayMs (backoffDelay 1), .attempt 2]) := by
    unfold generateBookmarksBatch
    rw [hkey, hemp]
    rw [s0, s1, s2]
    simp
  refine ⟨hrun, ?_⟩
  rw [hrun]
  rw [countAttempts_prefetch_append]
  rfl

/-- Witness for C4 amended at a one-URL input and an oracle that always
fails with a generic quota message and status 429. -/
theorem rateLimit_retry_ceiling_witness :
    generateBookmarksBatch
        ⟨true, fun _ => none, fun _ => .err ⟨some 429, "quota"⟩⟩
        ["https://a.example/x"]
      = (.error (.jsError ⟨some 429, "quota"⟩),
          (["https://a.example/x"].map Event.prefetch)
            ++ [.attempt 0, .delayMs (backoffDelay 0), .attempt 1,
                .delayMs (backoffDelay 1), .attempt 2])
    ∧ countAttempts (generateBookmarksBatch
        ⟨true, fun _ => none, fun _ => .err ⟨some 429, "quota"⟩⟩
        ["https://a.example/x"]).2 = MAX_RETRIES + 1 :=
  rateLimit_retry_ceiling
    ⟨true, fun _ => none, fun _ => .err ⟨some 429, "quota"⟩⟩
    ["https://a.example/x"] ⟨some 429, "quota"⟩ rfl (by decide)
    (fun _ _ => rfl) (by decide) (by decide)

/-- Counterexample to C4 as stated: an error that is rate-limited by
the claim (status 429) but whose message carries an auth marker makes
the call stop after a single attempt and raise the auth error, not
three attempts ending in the underlying rate-limit error. -/
theorem rateLimit_claim_counterexample :
    isRateLimit ⟨some 429, "API key not valid"⟩ = true
    ∧ (generateBookmarksBatch
        ⟨true, fun _ => none, fun _ => .err ⟨some 429, "API key not valid"⟩⟩
        ["https://a.example/x"]).1
      = .error (.apiKeyError "API Key invalid or expired.")
    ∧ countAttempts (generateBookmarksBatch
        ⟨true, fun _ => none, fun _ => .err ⟨some 429, "API key not valid"⟩⟩
        ["https://a.example/x"]).2 = 1
    ∧ ¬ countAttempts (generateBookmarksBatch
        ⟨true, fun _ => none, fun _ => .err ⟨some 429, "API key not valid"⟩⟩
        ["https://a.example/x"]).2 = MAX_RETRIES + 1 :=
  ⟨by decide, rfl, rfl, by decide⟩

/-- Any successful value of the retry loop is the per-URL mapping of
some response array and source list. -/
theorem batchLoop_ok_shape (dateOf : String → Option (Int × String))
    (oracle : Nat → AttemptOutcome) (urls : List String) :
    ∀ (fuel att : Nat) (out : List BookmarkResult) (evs : List Event),
      batchLoop dateOf oracle urls fuel att = (.ok out, evs) →
      ∃ rs ss, out = mapResults dateOf urls rs ss := by
  intro fuel
  induction fuel with
  | zero =>
    intro att out evs h
    simp [batchLoop] at h
  | succ f ih =>
    intro att out evs h
    simp only [batchLoop] at h
    split at h
    next rs ss _ =>
      simp only [Prod.mk.injEq, Except.ok.injEq] at h
      exact ⟨rs, ss, h.1.symm⟩
    next e _ =>
      split at h
      · simp at h
      · split at h
        · have h1 : (batchLoop dateOf oracle urls f (att + 1)).1 = Except.ok out :=
            congrArg Prod.fst h
          exact ih (att + 1) out (batchLoop dateOf oracle urls f (att + 1)).2
            (by rw [← h1])
        · split at h
          · simp at h
          · have h1 : (batchLoop dateOf oracle urls f (att + 1)).1 = Except.ok out :=
              congrArg Prod.fst h
            exact ih (att + 1) out (batchLoop dateOf oracle urls f (att + 1)).2
              (by rw [← h1])

/-- The per-URL mapping has one entry per input URL. -/
theorem mapResults_length (dateOf : String → Option (Int × String)) (urls : List String)
    (rs : List RespObj) (ss : List SourceRef) :
    (mapResults dateOf urls rs ss).length = urls.length := by
  simp [mapResults]

/-- The entry at every position of the per-URL mapping carries exactly
the input URL of that position. -/
theorem mapResults_get_url (dateOf : String → Option (Int × String)) (urls : List String)
    (rs : List RespObj) (ss : List SourceRef) (i : Nat) :
    ((mapResults dateOf urls rs ss).get? i).map BookmarkResult.url = urls.get? i := by
  rw [mapResults, List.get?_map]
  cases urls.get? i with
  | none => rfl
  | some u => rfl

/-- C1: a successfully completed batch call returns exactly one result
per input URL, in input order, the entry at position i carrying the
input URL of position i; and for every backend response array, an input
URL matched by no response object yields the URL-derived fallback
title, the fixed summary sentinel, the empty keyword list and a null
publication date. -/
theorem enrich_order_and_fallback :
    (∀ (cfg : BatchConfig) (urls : List String) (out : List BookmarkResult),
        (generateBookmarksBatch cfg urls).1 = .ok out →
        out.length = urls.length ∧
          ∀ i : Nat, (out.get? i).map BookmarkResult.url = urls.get? i)
    ∧ (∀ (dateOf : String → Option (Int × String)) (results : List RespObj)
        (sources : List SourceRef) (url : String),
        (∀ r ∈ results, respMatches url r = false) →
        (mapOne dateOf results sources url).url = url
        ∧ (mapOne dateOf results sources url).title = urlFallbackTitle url
        ∧ (mapOne dateOf results sources url).summary = "Summary could not be generated."
        ∧ (mapOne dateOf results sources url).keywords = []
        ∧ (mapOne dateOf results sources url).publicationDate = none) := by
  constructor
  · intro cfg urls out h
    unfold generateBookmarksBatch at h
    cases hk : cfg.apiKeyConfigured with
    | false => rw [hk] at h; simp at h
    | true =>
      rw [hk] at h
      cases hu : urls.isEmpty with
      | true =>
        rw [hu] at h
        simp at h
        have hnil : urls = [] := by
          cases urls with
          | nil => rfl
          | cons a t => simp at hu
        subst hnil
        subst h
        exact ⟨rfl, fun i => rfl⟩
      | false =>
        rw [hu] at h
        simp only [Bool.not_true, if_false, Bool.false_eq_true] at h
        rcases hp : batchLoop cfg.dateOf cfg.oracle urls (MAX_RETRIES + 1) 0 with ⟨r, es⟩
        rw [hp] at h
        simp at h
        rw [h] at hp
        obtain ⟨rs, ss, hout⟩ := batchLoop_ok_shape cfg.dateOf cfg.oracle urls _ _ _ _ hp
        subst hout
        exact ⟨mapResults_length _ _ _ _, mapResults_get_url _ _ _ _⟩
  · intro dateOf results sources url hno
    have hf : results.find? (respMatches url) = none := by
      rw [List.find?_eq_none]
      intro r hr
      simp [hno r hr]
    simp [mapOne, hf, jsOr]

/-- Witness for C1: a one-URL batch with an empty backend response, and
the fallback fields at a response object naming a different URL. -/
theorem enrich_order_and_fallback_witness :
    ((mapResults (fun _ => none) ["https://a.example/x"] [] []).length
        = (["https://a.example/x"] : List String).length)
    ∧ (((mapResults (fun _ => none) ["https://a.example/x"] [] []).get? 0).map
          BookmarkResult.url = (["https://a.example/x"] : List String).get? 0)
    ∧ (mapOne (fun _ => none)
        [⟨some "https://other.example/", some "T", some "S", some ["k"], none⟩]
        [] "https://a.example/x").title = urlFallbackTitle "https://a.example/x"
    ∧ (mapOne (fun _ => none)
        [⟨some "https://other.example/", some "T", some "S", some ["k"], none⟩]
        [] "https://a.example/x").summary = "Summary could not be generated."
    ∧ (mapOne (fun _ => none)
        [⟨some "https://other.example/", some "T", some "S", some ["k"], none⟩]
        [] "https://a.example/x").keywords = [] :=
  ⟨(enrich_order_and_fallback.1 ⟨true, fun _ => none, fun _ => .ok [] []⟩
      ["https://a.example/x"] (mapResults (fun _ => none) ["https://a.example/x"] [] [])
      rfl).1,
    (enrich_order_and_fallback.1 ⟨true, fun _ => none, fun _ => .ok [] []⟩
      ["https://a.example/x"] (mapResults (fun _ => none) ["https://a.example/x"] [] [])
      rfl).2 0,
    (enrich_order_and_fallback.2 (fun _ => none)
      [⟨some "https://other.example/", some "T", some "S", some ["k"], none⟩]
      [] "https://a.example/x" (by decide)).2.1,
    (enrich_order_and_fallback.2 (fun _ => none)
      [⟨some "https://other.example/", some "T", some "S", some ["k"], none⟩]
      [] "https://a.example/x" (by decide)).2.2.1,
    (enrich_order_and_fallback.2 (fun _ => none)
      [⟨some "https://other.example/", some "T", some "S", some ["k"], none⟩]
      [] "https://a.example/x" (by decide)).2.2.2.1⟩

/-- Membership form of the seen-set test of the admission loop. -/
theorem scontains_iff (l : List String) (a : String) : l.contains a = true ↔ a ∈ l := by
  induction l with
  | nil => simp
  | cons x t ih => simp [List.contains]

/-- Characterization of the admission dedup loop: no produced entry
carries a URL of the seen set, the produced URLs are pairwise distinct,
and every input entry is represented, either in the seen set or by
exactly one produced entry. -/
theorem dedupBatch_spec (data : List UrlEntry) : ∀ (seen : List String),
    (∀ e ∈ dedupBatch seen data, e.url ∉ seen)
    ∧ ((dedupBatch seen data).map UrlEntry.url).Nodup
    ∧ (∀ d ∈ data, stripUtmParams d.url ∈ seen
        ∨ stripUtmParams d.url ∈ (dedupBatch seen data).map UrlEntry.url) := by
  induction data with
  | nil =>
    intro seen
    refine ⟨by simp [dedupBatch], by simp [dedupBatch], by simp⟩
  | cons d rest ih =>
    intro seen
    by_cases hc : seen.contains (stripUtmParams d.url) = true
    · have hd : dedupBatch seen (d :: rest) = dedupBatch seen rest := by
        simp only [dedupBatch]
        rw [if_pos hc]
      obtain ⟨ih1, ih2, ih3⟩ := ih seen
      refine ⟨by rw [hd]; exact ih1, by rw [hd]; exact ih2, ?_⟩
      intro x hx
      rcases List.mem_cons.mp hx with rfl | hx
      · exact Or.inl ((scontains_iff seen _).mp hc)
      · rw [hd]
        exact ih3 x hx
    · have hd : dedupBatch seen (d :: rest)
          = { d with url := stripUtmParams d.url }
              :: dedupBatch (stripUtmParams d.url :: seen) rest := by
        simp only [dedupBatch]
        rw [if_neg hc]
      obtain ⟨ih1, ih2, ih3⟩ := ih (stripUtmParams d.url :: seen)
      have hnotmem : stripUtmParams d.url ∉ seen := fun hm =>
        hc ((scontains_iff seen _).mpr hm)
      refine ⟨?_, ?_, ?_⟩
      · intro e he
        rw [hd] at he
        rcases List.mem_cons.mp he with rfl | he
        · exact hnotmem
        · intro hm
          exact ih1 e he (List.mem_cons_of_mem _ hm)
      · rw [hd]
        simp only [List.map_cons, List.nodup_cons]
        refine ⟨?_, ih2⟩
        intro hm
        obtain ⟨e, he, heq⟩ := List.mem_map.mp hm
        exact ih1 e he (by rw [heq]; exact List.mem_cons_self _ _)
      · intro x hx
        rcases List.mem_cons.mp hx with rfl | hx
        · right
          rw [hd]
          simp
        · rcases ih3 x hx with h | h
          · rcases List.mem_cons.mp h with heq | hseen
            · right
              rw [hd, heq]
              simp
            · exact Or.inl hseen
          · right
            rw [hd]
            simp only [List.map_cons]
            exact List.mem_cons_of_mem _ h

/-- The placeholder records carry exactly the admitted URLs in order. -/
theorem mkNewEntriesFrom_map_url (ids : Nat → Nat) (now : String) :
    ∀ (i : Nat) (batch : List UrlEntry),
      (mkNewEntriesFrom ids now i batch).map Bookmark.url = batch.map UrlEntry.url := by
  intro i batch
  induction batch generalizing i with
  | nil => rfl
  | cons d rest ih => simp [mkNewEntriesFrom, mkEntry, ih]

/-- Every placeholder record starts queued: placeholder title,
processing status, empty summary and keywords. -/
theorem mkNewEntriesFrom_fields (ids : Nat → Nat) (now : String) :
    ∀ (i : Nat) (batch : List UrlEntry) (b : Bookmark),
      b ∈ mkNewEntriesFrom ids now i batch →
      b.title = "Queued..." ∧ b.status = Status.processing
        ∧ b.summary = "" ∧ b.keywords = [] := by
  intro i batch
  induction batch generalizing i with
  | nil => intro b hb; simp [mkNewEntriesFrom] at hb
  | cons d rest ih =>
    intro b hb
    rcases List.mem_cons.mp hb with rfl | hb
    · exact ⟨rfl, rfl, rfl, rfl⟩
    · exact ih (i + 1) b hb

/-- C3 amended: the admission dedup compares tracking-stripped URLs by
exact, case-sensitive string equality: an entry whose stripped URL
exactly equals the URL of an existing non-error record creates no
record, every created record is a queued placeholder whose URL is new,
created URLs are pairwise distinct so equal stripped URLs within one
batch create exactly one record, and every entry not already present is
represented by a created record. -/
theorem admission_dedup_exact (books : List Bookmark) (urlData : List UrlEntry)
    (ids : Nat → Nat) (now : String) :
    (∀ b ∈ mkNewEntries ids now (dedupBatch (existingUrls books) urlData),
        b.url ∉ existingUrls books ∧ b.title = "Queued..."
          ∧ b.status = Status.processing)
    ∧ ((mkNewEntries ids now
        (dedupBatch (existingUrls books) urlData)).map Bookmark.url).Nodup
    ∧ (∀ d ∈ urlData, stripUtmParams d.url ∈ existingUrls books
        ∨ stripUtmParams d.url
            ∈ (mkNewEntries ids now
                (dedupBatch (existingUrls books) urlData)).map Bookmark.url) := by
  obtain ⟨h1, h2, h3⟩ := dedupBatch_spec urlData (existingUrls books)
  have hmap := mkNewEntriesFrom_map_url ids now 0 (dedupBatch (existingUrls books) urlData)
  refine ⟨?_, ?_, ?_⟩
  · intro b hb
    have hfields := mkNewEntriesFrom_fields ids now 0 _ b hb
    have hurl : b.url ∈ (dedupBatch (existingUrls books) urlData).map UrlEntry.url := by
      rw [← hmap]
      exact List.mem_map_of_mem Bookmark.url hb
    obtain ⟨e, he, heq⟩ := List.mem_map.mp hurl
    exact ⟨by rw [← heq]; exact h1 e he, hfields.1, hfields.2.1⟩
  · rw [mkNewEntries, hmap]
    exact h2
  · intro d hd
    rcases h3 d hd with h | h
    · exact Or.inl h
    · right
      rw [mkNewEntries, hmap]
      exact h

/-- Witness for C3 amended: the same URL admitted twice in one batch on
an empty store creates exactly one placeholder, the produced URL list
being duplicate-free and containing the stripped URL. -/
theorem admission_dedup_exact_witness :
    stripUtmParams "https://a.example/"
        ∈ (mkNewEntries (fun n => n) "t"
            (dedupBatch (existingUrls [])
              [⟨"https://a.example/", none⟩, ⟨"https://a.example/", none⟩])).map
            Bookmark.url
    ∧ ((mkNewEntries (fun n => n) "t"
          (dedupBatch (existingUrls [])
            [⟨"https://a.example/", none⟩, ⟨"https://a.example/", none⟩])).map
          Bookmark.url).Nodup :=
  ⟨((admission_dedup_exact [] [⟨"https://a.example/", none⟩, ⟨"https://a.example/", none⟩]
        (fun n => n) "t").2.2 ⟨"https://a.example/", none⟩
        (List.mem_cons_self _ _)).resolve_left (by decide),
    (admission_dedup_exact [] [⟨"https://a.example/", none⟩, ⟨"https://a.example/", none⟩]
        (fun n => n) "t").2.1⟩

/-- Counterexample to C3 as stated: a URL differing from an existing
non-error record only in letter case is admitted again, because the
dedup set membership test is exact string equality, so a new record is
created where the claim requires none. -/
theorem admission_dedup_claim_counterexample :
    strLower "https://A.example/" = strLower "https://a.example/"
    ∧ (Bookmark.mk 0 "https://a.example/" "T" "a long summary" [] Status.done "d" []).status
        ≠ Status.error
    ∧ (handleProcessUrls (fun _ => ChunkOutcome.ok []) (fun n => n) "t"
        (AppState.mk
          [Bookmark.mk 0 "https://a.example/" "T" "a long summary" [] Status.done "d" []]
          none false)
        [⟨"https://A.example/", none⟩]).bookmarks.length = 2 := by
  decide

/-- Appending a non-empty keyword that fails the case-insensitive
presence test preserves the keyword invariant. -/
theorem keywordsOk_append (ks : List String) (k : String)
    (hok : keywordsOk ks) (hne : k ≠ "")
    (hnew : ks.any (fun x => strLower x == strLower k) = false) :
    keywordsOk (ks ++ [k]) := by
  obtain ⟨h1, h2⟩ := hok
  constructor
  · intro x hx
    rcases List.mem_append.mp hx with hx | hx
    · exact h1 x hx
    · rw [List.mem_singleton] at hx
      subst hx
      exact hne
  · rw [List.map_append]
    refine List.Nodup.append h2 (List.nodup_singleton _) ?_
    intro a ha hb
    simp only [List.map_cons, List.map_nil, List.mem_singleton] at hb
    subst hb
    obtain ⟨x, hx, hxe⟩ := List.mem_map.mp ha
    exact (List.any_eq_false.mp hnew) x hx (beq_iff_eq.mpr hxe)

/-- C7 amended: the keyword invariant (no empty entry, no two entries
equal after lowercasing) holds for freshly admitted records and is
preserved by keyword removal, by the manual keyword add, by the bulk
keyword add given a non-empty keyword, and by the enrichment merge
exactly when the keywords of the merged result already satisfy it; the
merge copies the response keywords verbatim, so the invariant is not
enforced on that path. -/
theorem keyword_invariant_amended :
    (∀ (ids : Nat → Nat) (now : String) (batch : List UrlEntry) (b : Bookmark),
        b ∈ mkNewEntries ids now batch → keywordsOk b.keywords)
    ∧ (∀ (b : Bookmark) (i : Nat), keywordsOk b.keywords →
        keywordsOk (handleKeywordRemove b i).keywords)
    ∧ (∀ (b : Bookmark) (input : String), keywordsOk b.keywords →
        keywordsOk (handleKeywordAdd b input).keywords)
    ∧ (∀ (sel : Nat → Bool) (kw : String) (books : List Bookmark) (b : Bookmark),
        kw ≠ "" → (∀ x ∈ books, keywordsOk x.keywords) →
        b ∈ handleBulkAddKeyword sel kw books → keywordsOk b.keywords)
    ∧ (∀ (b : Bookmark) (res : BookmarkResult), keywordsOk res.keywords →
        keywordsOk (applyResult b res).keywords)
    ∧ (∀ (res : BookmarkResult) (books : List Bookmark) (b : Bookmark),
        keywordsOk res.keywords → (∀ x ∈ books, keywordsOk x.keywords) →
        b ∈ mergeResult res books → keywordsOk b.keywords) := by
  refine ⟨?_, ?_, ?_, ?_, ?_, ?_⟩
  · intro ids now batch b hb
    have h := (mkNewEntriesFrom_fields ids now 0 batch b hb).2.2.2
    rw [h]
    exact ⟨by simp, List.nodup_nil⟩
  · intro b i hok
    obtain ⟨h1, h2⟩ := hok
    have hsub : List.Sublist (b.keywords.eraseIdx i) b.keywords := List.eraseIdx_sublist _ i
    constructor
    · intro x hx
      exact h1 x (hsub.subset hx)
    · exact List.Nodup.sublist (hsub.map strLower) h2
  · intro b input hok
    simp only [handleKeywordAdd]
    split
    next hcond =>
      rw [Bool.and_eq_true] at hcond
      refine keywordsOk_append _ _ hok ?_ ?_
      · exact bne_iff_ne.mp hcond.1
      · rw [Bool.not_eq_true'] at hcond
        exact hcond.2
    next => exact hok
  · intro sel kw books b hne hall hb
    obtain ⟨x, hx, hbx⟩ := List.mem_map.mp hb
    subst hbx
    by_cases hsel : sel x.id = true
    · simp only [hsel, if_pos rfl]
      by_cases hcond : (x.keywords.any fun k => strLower k == strLower kw) = true
      · simp only [hcond, Bool.not_true, Bool.false_eq_true, if_false]
        exact hall x hx
      · have hfalse : (x.keywords.any fun k => strLower k == strLower kw) = false :=
          Bool.eq_false_iff.mpr hcond
        simp only [hfalse, Bool.not_false, if_pos rfl]
        exact keywordsOk_append _ _ (hall x hx) hne hfalse
    · simp only [hsel]
      simp only [Bool.false_eq_true, if_false]
      exact hall x hx
  · intro b res hres
    exact hres
  · intro res books b hres hall hb
    induction books with
    | nil => simp [mergeResult] at hb
    | cons x xs ih =>
      have hallxs : ∀ y ∈ xs, keywordsOk y.keywords := fun y hy =>
        hall y (List.mem_cons_of_mem _ hy)
      simp only [mergeResult] at hb
      split at hb
      · rcases List.mem_cons.mp hb with rfl | hb
        · exact hres
        · exact hallxs b hb
      · rcases List.mem_cons.mp hb with rfl | hb
        · exact hall b (List.mem_cons_self _ _)
        · exact ih hallxs hb

/-- Witness for C7 amended at concrete records: a trimmed manual add
onto a clean record, and a merge of a clean result through the
reconciliation. -/
theorem keyword_invariant_amended_witness :
    keywordsOk (handleKeywordAdd
        (Bookmark.mk 0 "u" "t" "s" ["x"] Status.done "d" []) " y ").keywords
    ∧ keywordsOk (applyResult (Bookmark.mk 0 "u" "t" "s" [] Status.processing "d" [])
        ⟨"u", "T", "a long enough summary", ["a"], none, []⟩).keywords :=
  ⟨keyword_invariant_amended.2.2.1 (Bookmark.mk 0 "u" "t" "s" ["x"] Status.done "d" [])
      " y " (by decide),
    keyword_invariant_amended.2.2.2.2.1
      (Bookmark.mk 0 "u" "t" "s" [] Status.processing "d" [])
      ⟨"u", "T", "a long enough summary", ["a"], none, []⟩ (by decide)⟩

/-- Counterexample to C7 as stated: the enrichment merge copies the
response keywords verbatim, so a response carrying two entries equal up
to case puts a case-insensitive duplicate pair on the record. -/
theorem keyword_invariant_counterexample :
    (mergeResult ⟨"u", "Title", "a sufficiently long summary", ["AI", "ai"], none, []⟩
        [Bookmark.mk 0 "u" "t" "" [] Status.processing "d" []]).map Bookmark.keywords
      = [["AI", "ai"]]
    ∧ ¬ keywordsOk ["AI", "ai"] := by
  decide

/-- A separator absent from the list is never found. -/
theorem splitFirst_of_not_mem (sep : Char) :
    ∀ (cs : List Char), sep ∉ cs → splitFirst sep cs = none := by
  intro cs
  induction cs with
  | nil => intro _; rfl
  | cons c t ih =>
    intro h
    rw [List.mem_cons, not_or] at h
    simp only [splitFirst]
    rw [if_neg (fun hc => h.1 hc.symm), ih h.2]

/-- A none result means the separator is absent. -/
theorem not_mem_of_splitFirst_none (sep : Char) :
    ∀ (cs : List Char), splitFirst sep cs = none → sep ∉ cs := by
  intro cs
  induction cs with
  | nil => intro _ _; exact List.not_mem_nil _ (by assumption)
  | cons c t ih =>
    intro h hm
    simp only [splitFirst] at h
    by_cases hc : c = sep
    · rw [if_pos hc] at h
      simp at h
    · rw [if_neg hc] at h
      cases hsp : splitFirst sep t with
      | none =>
        rcases List.mem_cons.mp hm with hs | hs
        · exact hc hs.symm
        · exact ih hsp hs
      | some p =>
        rw [hsp] at h
        simp at h

/-- Finding the separator right after a separator-free leading part. -/
theorem splitFirst_append_of_not_mem (sep : Char) (b : List Char) :
    ∀ (a : List Char), sep ∉ a → splitFirst sep (a ++ sep :: b) = some (a, b) := by
  intro a
  induction a with
  | nil => intro _; simp [splitFirst]
  | cons c t ih =>
    intro h
    rw [List.mem_cons, not_or] at h
    simp only [List.cons_append, splitFirst]
    rw [if_neg (fun hc => h.1 hc.symm)]
    simp only [List.append_eq]
    rw [ih h.2]

/-- A some result reconstructs the list, the leading part being
separator free. -/
theorem splitFirst_eq_some (sep : Char) :
    ∀ (cs a b : List Char), splitFirst sep cs = some (a, b) →
      cs = a ++ sep :: b ∧ sep ∉ a := by
  intro cs
  induction cs with
  | nil => intro a b h; simp [splitFirst] at h
  | cons c t ih =>
    intro a b h
    simp only [splitFirst] at h
    by_cases hc : c = sep
    · rw [if_pos hc] at h
      simp only [Option.some.injEq, Prod.mk.injEq] at h
      rw [← h.1, ← h.2, hc]
      exact ⟨rfl, List.not_mem_nil _⟩
    · rw [if_neg hc] at h
      rcases hsp : splitFirst sep t with _ | ⟨pa, pb⟩
      · rw [hsp] at h
        simp at h
      · rw [hsp] at h
        simp only [Option.some.injEq, Prod.mk.injEq] at h
        obtain ⟨h1, h2⟩ := ih pa pb hsp
        constructor
        · rw [← h.1, ← h.2, List.cons_append, ← h1]
        · rw [← h.1]
          intro hm
          rcases List.mem_cons.mp hm with hs | hs
          · exact hc hs.symm
          · exact h2 hs

/-- Splitting a separator-free list gives that list alone. -/
theorem splitAll_of_not_mem (sep : Char) :
    ∀ (cs : List Char), sep ∉ cs → splitAll sep cs = [cs] := by
  intro cs
  induction cs with
  | nil => intro _; rfl
  | cons c t ih =>
    intro h
    rw [List.mem_cons, not_or] at h
    simp only [splitAll]
    rw [if_neg (fun hc => h.1 hc.symm), ih h.2]

/-- Splitting past a separator-free leading part peels it off. -/
theorem splitAll_append (sep : Char) (b : List Char) :
    ∀ (a : List Char), sep ∉ a →
      splitAll sep (a ++ sep :: b) = a :: splitAll sep b := by
  intro a
  induction a with
  | nil => intro _; simp [splitAll]
  | cons c t ih =>
    intro h
    rw [List.mem_cons, not_or] at h
    simp only [List.cons_append, splitAll]
    rw [if_neg (fun hc => h.1 hc.symm)]
    simp only [List.append_eq]
    rw [ih h.2]

/-- No piece of a split contains the separator. -/
theorem splitAll_not_mem_self (sep : Char) :
    ∀ (cs : List Char), ∀ s ∈ splitAll sep cs, sep ∉ s := by
  intro cs
  induction cs with
  | nil =>
    intro s hs
    rw [show splitAll sep [] = [[]] from rfl, List.mem_singleton] at hs
    subst hs
    exact List.not_mem_nil _
  | cons c t ih =>
    intro s hs
    simp only [splitAll] at hs
    by_cases hc : c = sep
    · rw [if_pos hc] at hs
      rcases List.mem_cons.mp hs with rfl | hs
      · exact List.not_mem_nil _
      · exact ih s hs
    · rw [if_neg hc] at hs
      cases hsp : splitAll sep t with
      | nil =>
        rw [hsp] at hs
        rw [List.mem_singleton] at hs
        subst hs
        intro hm
        rw [List.mem_singleton] at hm
        exact hc hm.symm
      | cons s0 rest =>
        rw [hsp] at hs
        rcases List.mem_cons.mp hs with rfl | hs
        · intro hm
          rcases List.mem_cons.mp hm with hm | hm
          · exact hc hm.symm
          · exact ih s0 (by rw [hsp]; exact List.mem_cons_self _ _) hm
        · exact ih s (by rw [hsp]; exact List.mem_cons_of_mem _ hs)

/-- Every character of a split piece comes from the input. -/
theorem splitAll_mem_subset (sep : Char) :
    ∀ (cs : List Char), ∀ s ∈ splitAll sep cs, ∀ x ∈ s, x ∈ cs := by
  intro cs
  induction cs with
  | nil =>
    intro s hs x hx
    rw [show splitAll sep [] = [[]] from rfl, List.mem_singleton] at hs
    subst hs
    exact absurd hx (List.not_mem_nil x)
  | cons c t ih =>
    intro s hs x hx
    simp only [splitAll] at hs
    by_cases hc : c = sep
    · rw [if_pos hc] at hs
      rcases List.mem_cons.mp hs with rfl | hs
      · exact absurd hx (List.not_mem_nil x)
      · exact List.mem_cons_of_mem _ (ih s hs x hx)
    · rw [if_neg hc] at hs
      cases hsp : splitAll sep t with
      | nil =>
        rw [hsp] at hs
        rw [List.mem_singleton] at hs
        subst hs
        rw [List.mem_singleton] at hx
        subst hx
        exact List.mem_cons_self _ _
      | cons s0 rest =>
        rw [hsp] at hs
        rcases List.mem_cons.mp hs with rfl | hs
        · rcases List.mem_cons.mp hx with rfl | hx
          · exact List.mem_cons_self _ _
          · exact List.mem_cons_of_mem _
              (ih s0 (by rw [hsp]; exact List.mem_cons_self _ _) x hx)
        · exact List.mem_cons_of_mem _
            (ih s (by rw [hsp]; exact List.mem_cons_of_mem _ hs) x hx)

/-- Membership in a serialized query pair. -/
theorem mem_serSeg (c : Char) (kv : List Char × List Char) :
    c ∈ serSeg kv ↔ (c ∈ kv.1 ∨ c = '=' ∨ c ∈ kv.2) := by
  simp [serSeg]

/-- A well-formed pair serializes without the fragment marker. -/
theorem hash_not_mem_serSeg (kv : List Char × List Char) (h : wfPair kv) :
    '#' ∉ serSeg kv := by
  intro hm
  rw [mem_serSeg] at hm
  rcases hm with hm | hm | hm
  · exact h.2.2.1 hm
  · simp at hm
  · exact h.2.2.2.2 hm

/-- A well-formed pair serializes without the pair separator. -/
theorem amp_not_mem_serSeg (kv : List Char × List Char) (h : wfPair kv) :
    '&' ∉ serSeg kv := by
  intro hm
  rw [mem_serSeg] at hm
  rcases hm with hm | hm | hm
  · exact h.2.1 hm
  · simp at hm
  · exact h.2.2.2.1 hm

/-- A serialized pair is never the empty segment. -/
theorem serSeg_isEmpty (kv : List Char × List Char) : (serSeg kv).isEmpty = false := by
  obtain ⟨k, v⟩ := kv
  simp only [serSeg]
  cases k <;> rfl

/-- A well-formed query serializes without the fragment marker. -/
theorem hash_not_mem_serQuery :
    ∀ (q : List (List Char × List Char)), (∀ kv ∈ q, wfPair kv) →
      '#' ∉ serQuery q := by
  intro q
  induction q with
  | nil => intro _; exact List.not_mem_nil _
  | cons kv rest ih =>
    intro h
    have hkv := h kv (List.mem_cons_self _ _)
    have hrest : ∀ x ∈ rest, wfPair x := fun x hx => h x (List.mem_cons_of_mem _ hx)
    cases rest with
    | nil => exact hash_not_mem_serSeg kv hkv
    | cons kv2 rest2 =>
      simp only [serQuery]
      intro hm
      rcases List.mem_append.mp hm with hm | hm
      · exact hash_not_mem_serSeg kv hkv hm
      · rcases List.mem_cons.mp hm with hm | hm
        · simp at hm
        · exact ih hrest hm

/-- Parsing a serialized pair recovers it when the key is well formed. -/
theorem parseSeg_serSeg (kv : List Char × List Char) (h : '=' ∉ kv.1) :
    parseSeg (serSeg kv) = kv := by
  simp only [parseSeg, serSeg]
  rw [splitFirst_append_of_not_mem '=' kv.2 kv.1 h]

/-- Parsing a serialized well-formed query recovers the pair list. -/
theorem parseQuery_serQuery :
    ∀ (q : List (List Char × List Char)), (∀ kv ∈ q, wfPair kv) →
      parseQuery (serQuery q) = q := by
  intro q
  induction q with
  | nil => intro _; rfl
  | cons kv rest ih =>
    intro h
    have hkv := h kv (List.mem_cons_self _ _)
    have hrest : ∀ x ∈ rest, wfPair x := fun x hx => h x (List.mem_cons_of_mem _ hx)
    cases rest with
    | nil =>
      simp only [serQuery, parseQuery]
      rw [splitAll_of_not_mem '&' _ (amp_not_mem_serSeg kv hkv)]
      rw [List.filter_cons_of_pos (by simp [serSeg_isEmpty kv])]
      simp [parseSeg_serSeg kv hkv.1]
    | cons kv2 rest2 =>
      have ihq := ih hrest
      simp only [serQuery] at ihq ⊢
      simp only [parseQuery] at ihq ⊢
      rw [splitAll_append '&' _ _ (amp_not_mem_serSeg kv hkv)]
      rw [List.filter_cons_of_pos (by simp [serSeg_isEmpty kv])]
      rw [List.map_cons, parseSeg_serSeg kv hkv.1, ihq]

/-- Every pair parsed out of a fragment-free query string is well
formed. -/
theorem parseQuery_wf (qs : List Char) (hq : '#' ∉ qs) :
    ∀ kv ∈ parseQuery qs, wfPair kv := by
  intro kv hkv
  simp only [parseQuery] at hkv
  obtain ⟨seg, hseg, hkveq⟩ := List.mem_map.mp hkv
  have hseg' : seg ∈ splitAll '&' qs := (List.mem_filter.mp hseg).1
  have hamp : '&' ∉ seg := splitAll_not_mem_self '&' qs seg hseg'
  have hsub : ∀ x ∈ seg, x ∈ qs := splitAll_mem_subset '&' qs seg hseg'
  have hhash : '#' ∉ seg := fun hm => hq (hsub _ hm)
  subst hkveq
  simp only [parseSeg]
  rcases hsp : splitFirst '=' seg with _ | ⟨k, v⟩
  · exact ⟨not_mem_of_splitFirst_none '=' seg hsp, hamp, hhash,
      List.not_mem_nil _, List.not_mem_nil _⟩
  · obtain ⟨hseq, hknot⟩ := splitFirst_eq_some '=' seg k v hsp
    have hsubk : ∀ x ∈ k, x ∈ seg := fun x hx => by
      rw [hseq]; exact List.mem_append_left _ hx
    have hsubv : ∀ x ∈ v, x ∈ seg := fun x hx => by
      rw [hseq]; exact List.mem_append_right _ (List.mem_cons_of_mem _ hx)
    exact ⟨hknot, fun hm => hamp (hsubk _ hm), fun hm => hhash (hsubk _ hm),
      fun hm => hamp (hsubv _ hm), fun hm => hhash (hsubv _ hm)⟩

/-- Every record produced by the pre-fragment parser is well formed and
carries the given fragment. -/
theorem parsePre_wf (pre : List Char) (frag : Option (List Char)) (u : URLRec)
    (h : parsePre pre frag = some u) (hh : '#' ∉ pre) :
    wfURL u ∧ u.frag = frag := by
  simp only [parsePre] at h
  rcases h2 : splitFirst '?' pre with _ | ⟨a, b⟩ <;> rw [h2] at h <;> dsimp only at h
  · split at h
    next hl =>
      simp only [Option.some.injEq] at h
      subst h
      exact ⟨⟨hl, not_mem_of_splitFirst_none '?' pre h2, hh, by simp⟩, rfl⟩
    next => simp at h
  · obtain ⟨hpre, hqnot⟩ := splitFirst_eq_some '?' pre a b h2
    split at h
    next hl =>
      simp only [Option.some.injEq] at h
      subst h
      have hha : '#' ∉ a := fun hm => hh (by
        rw [hpre]; exact List.mem_append_left _ hm)
      have hhb : '#' ∉ b := fun hm => hh (by
        rw [hpre]; exact List.mem_append_right _ (List.mem_cons_of_mem _ hm))
      exact ⟨⟨hl, hqnot, hha, parseQuery_wf b hhb⟩, rfl⟩
    next => simp at h

/-- Every record produced by the URL parser is well formed. -/
theorem parseURL_wf (cs : List Char) (u : URLRec) (h : parseURL cs = some u) :
    wfURL u := by
  simp only [parseURL] at h
  rcases h1 : splitFirst '#' cs with _ | ⟨a, b⟩ <;> rw [h1] at h
  · exact (parsePre_wf cs none u h (not_mem_of_splitFirst_none '#' cs h1)).1
  · exact (parsePre_wf a (some b) u h (splitFirst_eq_some '#' cs a b h1).2).1

/-- The pre-fragment parser recovers a well-formed record from its
serialized base and query. -/
theorem parsePre_round (u : URLRec) (hbase : lhas "://".data u.base = true)
    (hq : '?' ∉ u.base) (hquery : ∀ kv ∈ u.query, wfPair kv) :
    parsePre (u.base ++ (if u.query.isEmpty then [] else '?' :: serQuery u.query))
        u.frag = some u := by
  cases hql : u.query with
  | nil =>
    show parsePre (u.base ++ []) u.frag = some u
    rw [List.append_nil]
    simp only [parsePre]
    rw [splitFirst_of_not_mem '?' u.base hq]
    show (if lhas "://".data u.base = true
        then some ⟨u.base, [], u.frag⟩ else none) = some u
    rw [if_pos hbase, ← hql]
  | cons kv rest =>
    show parsePre (u.base ++ '?' :: serQuery (kv :: rest)) u.frag = some u
    simp only [parsePre]
    rw [splitFirst_append_of_not_mem '?' _ u.base hq]
    show (if lhas "://".data u.base = true
        then some ⟨u.base, parseQuery (serQuery (kv :: rest)), u.frag⟩
        else none) = some u
    rw [if_pos hbase, parseQuery_serQuery (kv :: rest) (hql ▸ hquery), ← hql]

/-- Parsing the serialization of a well-formed record recovers it. -/
theorem parseURL_serializeURL (u : URLRec) (h : wfURL u) :
    parseURL (serializeURL u) = some u := by
  obtain ⟨hbase, hq, hh, hquery⟩ := h
  have hqp : '#' ∉ (if u.query.isEmpty then [] else '?' :: serQuery u.query) := by
    by_cases hqe : u.query.isEmpty = true
    · rw [if_pos hqe]
      exact List.not_mem_nil _
    · rw [if_neg hqe]
      intro hm
      rcases List.mem_cons.mp hm with hm | hm
      · simp at hm
      · exact hash_not_mem_serQuery u.query hquery hm
  have hnh : '#' ∉ u.base ++ (if u.query.isEmpty then [] else '?' :: serQuery u.query) := by
    intro hm
    rcases List.mem_append.mp hm with hm | hm
    · exact hh hm
    · exact hqp hm
  simp only [serializeURL, parseURL]
  cases hf : u.frag with
  | none =>
    simp only [List.append_nil]
    rw [splitFirst_of_not_mem '#' _ hnh]
    have hr := parsePre_round u hbase hq hquery
    rw [hf] at hr
    exact hr
  | some f =>
    rw [splitFirst_append_of_not_mem '#' f _ hnh]
    have hr := parsePre_round u hbase hq hquery
    rw [hf] at hr
    exact hr

/-- Filtering out tracking keys twice equals filtering once. -/
theorem filter_utm_idem (l : List (List Char × List Char)) :
    (l.filter (fun kv => !isUtmKey kv.1)).filter (fun kv => !isUtmKey kv.1)
      = l.filter (fun kv => !isUtmKey kv.1) := by
  induction l with
  | nil => rfl
  | cons kv t ih =>
    by_cases hk : (!isUtmKey kv.1) = true
    · simp [List.filter_cons, hk, ih]
    · have hk' := Bool.eq_false_iff.mpr hk
      simp [List.filter_cons, hk', ih]

/-- Deleting tracking keys is idempotent on records. -/
theorem deleteUtm_idem (u : URLRec) : deleteUtm (deleteUtm u) = deleteUtm u := by
  simp only [deleteUtm]
  rw [filter_utm_idem]

/-- Deleting tracking keys preserves well-formedness. -/
theorem deleteUtm_wf (u : URLRec) (h : wfURL u) : wfURL (deleteUtm u) :=
  ⟨h.1, h.2.1, h.2.2.1, fun kv hkv => h.2.2.2 kv (List.mem_filter.mp hkv).1⟩

/-- The three observable outcomes of stripUtmParams: pass through, or
serialize the parsed record with tracking keys deleted. -/
theorem stripUtmParams_cases (s : String) :
    stripUtmParams s = s
    ∨ ∃ u, parseURL s.data = some u
        ∧ stripUtmParams s = String.mk (serializeURL (deleteUtm u)) := by
  simp only [stripUtmParams]
  split
  · exact Or.inl rfl
  · cases hp : parseURL s.data with
    | none => exact Or.inl rfl
    | some u => exact Or.inr ⟨u, rfl, rfl⟩

/-- C9: stripping tracking parameters is idempotent; an input that the
host URL parser rejects passes through unchanged; and on a parsed
input the output is exactly the serialization of the parsed record
with the tracking-prefixed query keys removed, all other structure
kept. -/
theorem stripUtmParams_spec :
    (∀ s : String, stripUtmParams (stripUtmParams s) = stripUtmParams s)
    ∧ (∀ s : String, parseURL s.data = none → stripUtmParams s = s)
    ∧ (∀ (s : String) (u : URLRec), s ≠ "" → strHas s "utm_" = true →
        parseURL s.data = some u →
        stripUtmParams s = String.mk (serializeURL (deleteUtm u))) := by
  refine ⟨?_, ?_, ?_⟩
  · intro s
    rcases stripUtmParams_cases s with h | ⟨u, hp, h⟩
    · rw [h]
      exact h
    · rw [h]
      have hwf := parseURL_wf s.data u hp
      have hrt : parseURL (String.mk (serializeURL (deleteUtm u))).data
          = some (deleteUtm u) :=
        parseURL_serializeURL (deleteUtm u) (deleteUtm_wf u hwf)
      simp only [stripUtmParams]
      split
      · rfl
      · rw [hrt]
        show String.mk (serializeURL (deleteUtm (deleteUtm u)))
            = String.mk (serializeURL (deleteUtm u))
        rw [deleteUtm_idem]
  · intro s hp
    simp only [stripUtmParams]
    split
    · rfl
    · rw [hp]
  · intro s u hne hhas hp
    simp only [stripUtmParams]
    split
    next hguard =>
      exfalso
      rw [Bool.or_eq_true] at hguard
      rcases hguard with hg | hg
      · exact hne (of_decide_eq_true hg)
      · rw [Bool.not_eq_true'] at hg
        simp [hhas] at hg
    next => rw [hp]

/-- Witness for C9: a concrete unparsable input passes through, and a
concrete tracked URL maps to its stripped serialization. -/
theorem stripUtmParams_spec_witness :
    stripUtmParams "utm_abc" = "utm_abc"
    ∧ stripUtmParams "https://a.example/?utm_x=1&b=2"
        = String.mk (serializeURL (deleteUtm
            ⟨"https://a.example/".data,
              [("utm_x".data, "1".data), ("b".data, "2".data)], none⟩)) :=
  ⟨stripUtmParams_spec.2.1 "utm_abc" (by decide),
    stripUtmParams_spec.2.2 "https://a.example/?utm_x=1&b=2"
      ⟨"https://a.example/".data,
        [("utm_x".data, "1".data), ("b".data, "2".data)], none⟩
      (by decide) (by decide) (by decide)⟩

end Bookmarklib
